import Mathlib

/-!
# Verification of the HexFileInfo Intel-HEX summarizer

A shallow embedding of `src/HexFileInfo.cpp`: the chunk-merging
accumulator maintained by `processHexFile` for data records, the
fixed-width hex decoder `fromHex`, and the per-line record parser /
driver loop.  All machine integers (`unsigned`, 32 bits) are modelled
as `Nat` with an explicit `% U` (`U = 2 ^ 32`) at every operation where
the C++ arithmetic can wrap.
-/

/-- Modulus of the C++ `unsigned` type (32 bits). -/
def U : Nat := 4294967296

/-- `Chunk` from the source: one contiguous run of data bytes
(`unsigned address; unsigned size;`). -/
structure Chunk where
  address : Nat
  size : Nat
deriving Repr, DecidableEq

/-- One-past-the-end of a chunk, as exact (unwrapped) arithmetic. -/
def chunkEnd (c : Chunk) : Nat := c.address + c.size

/-- `checkMergeChunk(Chunk chunk, auto iter)` from the source: merge
`chunk` into the chunk `c` pointed to by the iterator, if the two touch
exactly.  The first branch is `iter->address + iter->size ==
chunk.address` (then `iter->size += chunk.size`), the second is
`chunk.address + chunk.size == iter->address` (then `iter->address =
chunk.address; iter->size += chunk.size`).  Returns the mutated `*iter`
on success. -/
def checkMergeChunk (chunk c : Chunk) : Option Chunk :=
  if (c.address + c.size) % U = chunk.address then
    some ⟨c.address, (c.size + chunk.size) % U⟩
  else if (chunk.address + chunk.size) % U = c.address then
    some ⟨chunk.address, (c.size + chunk.size) % U⟩
  else none

/-- After the new/merged chunk has been placed (`fAdded` became true at
iterator position `placed`), the source checks whether it also merges
with the next element (`checkMergeChunk(*iter, next)`), erasing the
placed element if so. -/
def cascade (placed : Chunk) (rest : List Chunk) : List Chunk :=
  match rest with
  | [] => [placed]
  | nxt :: tail =>
    match checkMergeChunk placed nxt with
    | some merged => merged :: tail
    | none => placed :: nxt :: tail

/-- The `for (auto iter = chunks.begin(); ...)` loop of the `typeData`
case: walk the list (kept in descending address order), counting an
overlap for each examined element that overlaps the new chunk, until the
chunk is merged into an element or inserted before one with
`chunk.address >= iter->address`; then do the one cascading merge step
and stop.  Returns `none` when the loop falls off the end without
adding (the caller then does `chunks.push_front(chunk)`), together with
the number of `++numOverlapping` increments performed. -/
def insertLoop (chunk : Chunk) : List Chunk → Option (List Chunk) × Nat
  | [] => (none, 0)
  | c :: rest =>
    let ov : Nat :=
      if (c.address + c.size) % U > chunk.address ∧
          (chunk.address + chunk.size) % U > c.address then 1 else 0
    match checkMergeChunk chunk c with
    | some merged => (some (cascade merged rest), ov)
    | none =>
      if chunk.address ≥ c.address then
        (some (cascade chunk (c :: rest)), ov)
      else
        let p := insertLoop chunk rest
        (p.1.map (fun l => c :: l), ov + p.2)

/-- The whole `typeData` insertion step: run the loop; if it did not
add the chunk (`!fAdded`), `push_front` it.  Returns the new list and
the number of overlap increments. -/
def addChunk (chunk : Chunk) (chunks : List Chunk) : List Chunk × Nat :=
  match insertLoop chunk chunks with
  | (none, n) => (chunk :: chunks, n)
  | (some l, n) => (l, n)

/-- One data record's effect on `(chunks, numOverlapping)`. -/
def accumStep (p : List Chunk × Nat) (c : Chunk) : List Chunk × Nat :=
  let q := addChunk c p.1
  (q.1, p.2 + q.2)

/-- Fold a sequence of data chunks (in record order) through the
accumulator, starting from the empty list, summing the overlap
counter. -/
def accumulate (cs : List Chunk) : List Chunk × Nat :=
  cs.foldl accumStep ([], 0)

/-- Two chunks neither touch nor overlap (they are separated by a
nonempty gap on one side). -/
def separated (a b : Chunk) : Prop :=
  chunkEnd a < b.address ∨ chunkEnd b < a.address

instance (a b : Chunk) : Decidable (separated a b) :=
  decidable_of_iff (chunkEnd a < b.address ∨ chunkEnd b < a.address) Iff.rfl

/-- `sep a b`: chunk `b` lies entirely below chunk `a`, with a gap
(the order in which the accumulator keeps its list). -/
def sep (a b : Chunk) : Prop := chunkEnd b < a.address

instance (a b : Chunk) : Decidable (sep a b) :=
  decidable_of_iff (chunkEnd b < a.address) Iff.rfl

/-- A byte address `x` is covered by some chunk of the list. -/
def covered (x : Nat) (l : List Chunk) : Prop :=
  ∃ c ∈ l, c.address ≤ x ∧ x < chunkEnd c

/-- The chunks of the list that overlap `chunk`, counted with the same
(wrapping) overlap test the source uses. -/
def overlapCount (chunk : Chunk) (l : List Chunk) : Nat :=
  (l.filter (fun e =>
    decide ((e.address + e.size) % U > chunk.address ∧
      (chunk.address + chunk.size) % U > e.address))).length

/-- The prefix of the accumulator list the insertion loop actually
examines: every element up to and including the one at which the chunk
is merged or inserted (or the whole list when the loop falls off the
end). -/
def scanned (chunk : Chunk) : List Chunk → List Chunk
  | [] => []
  | c :: rest =>
    if (checkMergeChunk chunk c).isSome ∨ chunk.address ≥ c.address then [c]
    else c :: scanned chunk rest

-- Sanity: the two-chunk overlap example and the cascading-merge example.
example : accumulate [⟨0, 8⟩, ⟨4, 4⟩] = ([⟨4, 4⟩, ⟨0, 8⟩], 1) := by decide
example : accumulate [⟨0, 4⟩, ⟨10, 4⟩, ⟨4, 6⟩] = ([⟨0, 14⟩], 0) := by decide
example : accumulate [⟨0, 4⟩, ⟨4, 4⟩] = ([⟨0, 8⟩], 0) := by decide

/-- The insertion loop's overlap increments are exactly one per
overlapping element among the elements it examines. -/
theorem insertLoop_count (chunk : Chunk) (l : List Chunk) :
    (insertLoop chunk l).2 = overlapCount chunk (scanned chunk l) := by
  induction l with
  | nil => simp [insertLoop, scanned, overlapCount]
  | cons c rest ih =>
    rcases Classical.em ((c.address + c.size) % U > chunk.address ∧
        (chunk.address + chunk.size) % U > c.address) with hov | hov
    all_goals
      by_cases hm : (checkMergeChunk chunk c).isSome
    · rcases Option.isSome_iff_exists.mp hm with ⟨m, hmeq⟩
      simp [insertLoop, scanned, hmeq, overlapCount, List.filter, hov]
    · have hmeq : checkMergeChunk chunk c = none := Option.not_isSome_iff_eq_none.mp hm
      by_cases hge : chunk.address ≥ c.address
      · simp [insertLoop, scanned, hmeq, hm, hge, overlapCount, List.filter, hov]
      · simp [insertLoop, scanned, hmeq, hm, hge, overlapCount, List.filter, hov, ih,
          Nat.add_comm]
    · rcases Option.isSome_iff_exists.mp hm with ⟨m, hmeq⟩
      simp [insertLoop, scanned, hmeq, overlapCount, List.filter, hov]
    · have hmeq : checkMergeChunk chunk c = none := Option.not_isSome_iff_eq_none.mp hm
      by_cases hge : chunk.address ≥ c.address
      · simp [insertLoop, scanned, hmeq, hm, hge, overlapCount, List.filter, hov]
      · simp [insertLoop, scanned, hmeq, hm, hge, overlapCount, List.filter, hov, ih]

/-- C2 (counterexample): after inserting `{0,8}` then `{4,4}`, inserting
`{5,1}` increments the overlap counter only once, although two existing
chunks (`{4,4}` and `{0,8}`) overlap the new chunk: the loop stops
scanning at the position where the chunk is inserted. -/
theorem c2_overlap_counter_counterexample :
    accumulate [⟨0, 8⟩, ⟨4, 4⟩] = ([⟨4, 4⟩, ⟨0, 8⟩], 1) ∧
    (addChunk ⟨5, 1⟩ [⟨4, 4⟩, ⟨0, 8⟩]).2 = 1 ∧
    overlapCount ⟨5, 1⟩ [⟨4, 4⟩, ⟨0, 8⟩] = 2 := by decide

/-- C2 (amended): on every insertion the overlap counter is incremented
exactly once per overlapping chunk among the elements the loop examines
— the prefix of the collection up to and including the merge/insert
position — not per overlapping element of the whole collection; and the
claim's example — a chunk `{0,12}` spanning three prior disjoint chunks
`{0,2}`, `{4,2}`, `{8,2}` — does increment the counter by three. -/
theorem c2_overlap_counter_amended :
    (∀ (chunk : Chunk) (l : List Chunk),
      (addChunk chunk l).2 = overlapCount chunk (scanned chunk l)) ∧
    (accumulate [⟨0, 2⟩, ⟨4, 2⟩, ⟨8, 2⟩, ⟨0, 12⟩]).2 = 3 := by
  constructor
  · intro chunk l
    have h := insertLoop_count chunk l
    unfold addChunk
    rcases heq : insertLoop chunk l with ⟨o, n⟩
    cases o <;> simpa [heq] using h
  · decide

/-- C3 (counterexample): inserting `{0,8}` then `{4,4}` leaves TWO
chunks in the collection (`{4,4}` and `{0,8}`, front-to-back), not one:
`checkMergeChunk` merges only exactly-touching chunks, so the contained
chunk is inserted as a separate element. The overlap count is 1 as
claimed. -/
theorem c3_contained_chunk_counterexample :
    accumulate [⟨0, 8⟩, ⟨4, 4⟩] = ([⟨4, 4⟩, ⟨0, 8⟩], 1) ∧
    (accumulate [⟨0, 8⟩, ⟨4, 4⟩]).1.length ≠ 1 := by decide

/-- C3 (amended): starting from an empty accumulator, inserting chunk
`{0,8}` and then chunk `{4,4}` yields the two-element collection
`[{4,4}, {0,8}]` (descending front-to-back order), with overlap count
1. -/
theorem c3_contained_chunk_amended :
    accumulate [⟨0, 8⟩, ⟨4, 4⟩] = ([⟨4, 4⟩, ⟨0, 8⟩], 1) := by decide

/-- C4: inserting `{0,4}`, then `{10,4}`, then `{4,6}` yields exactly
the one merged chunk `{0,14}`: the third chunk touch-merges with
`{10,4}` and the cascade step then merges the widened chunk with
`{0,4}`. -/
theorem c4_cascading_merge :
    accumulate [⟨0, 4⟩, ⟨10, 4⟩, ⟨4, 6⟩] = ([⟨0, 14⟩], 0) := by decide

/-- C1 (counterexample): after inserting `{0,8}` and then `{4,4}` (both
of positive size), the collection holds two chunks that overlap each
other, violating the claimed post-condition that no two elements touch
or overlap (and that there is one element per maximal contiguous
region: the data covers the single region `[0,8)`). -/
theorem c1_invariant_counterexample :
    accumulate [⟨0, 8⟩, ⟨4, 4⟩] = ([⟨4, 4⟩, ⟨0, 8⟩], 1) ∧
    ¬ separated (⟨4, 4⟩ : Chunk) ⟨0, 8⟩ := by decide

theorem covered_nil (x : Nat) : covered x [] ↔ False := by simp [covered]

theorem covered_cons (x : Nat) (a : Chunk) (l : List Chunk) :
    covered x (a :: l) ↔ (a.address ≤ x ∧ x < chunkEnd a) ∨ covered x l := by
  simp [covered, List.mem_cons, or_and_right, exists_or]

/-- Behaviour of the cascading-merge step when the placed chunk lies
at-or-above every remaining element (touching at most the head): the
result is gap-separated, bounds-preserving, and covers exactly the old
bytes plus the placed chunk's bytes. -/
theorem cascade_spec (m : Chunk) (rest : List Chunk)
    (hrest : rest.Pairwise sep)
    (hB : ∀ e ∈ rest, 0 < e.size ∧ chunkEnd e < U)
    (hm : 0 < m.size) (hmU : m.address + m.size < U)
    (habove : ∀ e ∈ rest, chunkEnd e ≤ m.address) :
    ∃ q, cascade m rest = q ∧
      q.Pairwise sep ∧
      (∀ e ∈ q, 0 < e.size ∧ chunkEnd e < U) ∧
      (∀ x, covered x q ↔ covered x rest ∨ (m.address ≤ x ∧ x < chunkEnd m)) ∧
      (∀ b : Chunk, (∀ e ∈ rest, sep b e) → sep b m → ∀ e ∈ q, sep b e) := by
  cases rest with
  | nil =>
    refine ⟨[m], rfl, by simp, ?_, ?_, ?_⟩
    · intro e he
      rw [List.mem_singleton] at he
      subst he
      exact ⟨hm, hmU⟩
    · intro x
      simp [covered_cons, covered_nil]
    · intro b hall hbm e he
      rw [List.mem_singleton] at he
      subst he
      exact hbm
  | cons nxt tail =>
    rw [List.pairwise_cons] at hrest
    obtain ⟨hnxtall, htail⟩ := hrest
    have hBn := hB nxt (List.mem_cons_self _ _)
    have hNpos : 0 < nxt.size := hBn.1
    have hNU : nxt.address + nxt.size < U := hBn.2
    have hmodN : (nxt.address + nxt.size) % U = nxt.address + nxt.size :=
      Nat.mod_eq_of_lt hNU
    have hmodM : (m.address + m.size) % U = m.address + m.size :=
      Nat.mod_eq_of_lt hmU
    have habN : nxt.address + nxt.size ≤ m.address := habove nxt (List.mem_cons_self _ _)
    by_cases g1 : (nxt.address + nxt.size) % U = m.address
    · -- the placed chunk touches the next element exactly: cascade merges
      have g1e : nxt.address + nxt.size = m.address := by rwa [hmodN] at g1
      have hcm : checkMergeChunk m nxt = some ⟨nxt.address, (nxt.size + m.size) % U⟩ := by
        simp [checkMergeChunk, g1]
      have hsU : nxt.size + m.size < U := by omega
      have hmodS : (nxt.size + m.size) % U = nxt.size + m.size := Nat.mod_eq_of_lt hsU
      refine ⟨⟨nxt.address, (nxt.size + m.size) % U⟩ :: tail, by simp [cascade, hcm],
        ?_, ?_, ?_, ?_⟩
      · rw [List.pairwise_cons]
        refine ⟨?_, htail⟩
        intro a ha
        have h2 := hnxtall a ha
        simp only [sep, chunkEnd] at h2 ⊢
        omega
      · intro e he
        rcases List.mem_cons.mp he with he | he
        · subst he
          constructor
          · show 0 < (nxt.size + m.size) % U
            rw [hmodS]; omega
          · show nxt.address + (nxt.size + m.size) % U < U
            rw [hmodS]; omega
        · exact hB e (List.mem_cons_of_mem _ he)
      · intro x
        rw [covered_cons, covered_cons]
        have hM2 : ((⟨nxt.address, (nxt.size + m.size) % U⟩ : Chunk).address ≤ x ∧
            x < chunkEnd ⟨nxt.address, (nxt.size + m.size) % U⟩) ↔
            ((nxt.address ≤ x ∧ x < chunkEnd nxt) ∨ (m.address ≤ x ∧ x < chunkEnd m)) := by
          show (nxt.address ≤ x ∧ x < nxt.address + (nxt.size + m.size) % U) ↔ _
          simp only [chunkEnd]
          rw [hmodS]
          omega
        rw [hM2]
        tauto
      · intro b hball hbm e he
        rcases List.mem_cons.mp he with he | he
        · subst he
          simp only [sep, chunkEnd] at hbm ⊢
          show nxt.address + (nxt.size + m.size) % U < b.address
          rw [hmodS]; omega
        · exact hball e (List.mem_cons_of_mem _ he)
    · -- no cascading merge possible
      have g2 : (m.address + m.size) % U ≠ nxt.address := by
        rw [hmodM]; omega
      have hcm : checkMergeChunk m nxt = none := by
        simp [checkMergeChunk, g1, g2]
      rw [hmodN] at g1
      refine ⟨m :: nxt :: tail, by simp [cascade, hcm], ?_, ?_, ?_, ?_⟩
      · rw [List.pairwise_cons]
        refine ⟨?_, by rw [List.pairwise_cons]; exact ⟨hnxtall, htail⟩⟩
        intro a ha
        rcases List.mem_cons.mp ha with ha | ha
        · subst ha
          simp only [sep, chunkEnd]
          omega
        · have h2 := hnxtall a ha
          simp only [sep, chunkEnd] at h2 ⊢
          omega
      · intro e he
        rcases List.mem_cons.mp he with he | he
        · subst he
          exact ⟨hm, hmU⟩
        · exact hB e he
      · intro x
        rw [covered_cons]
        exact or_comm
      · intro b hball hbm e he
        rcases List.mem_cons.mp he with he | he
        · subst he
          exact hbm
        · exact hball e he

/-- Main invariant step: when the new chunk overlaps nothing in the
(gap-separated, descending) list and does not lie strictly below all of
it, the insertion loop places it (no `push_front`), counts no overlap,
keeps the list gap-separated and bounded, and the bytes covered grow by
exactly the new chunk's bytes. -/
theorem insertLoop_spec (c : Chunk) (hc : 0 < c.size) (hcU : c.address + c.size < U) :
    ∀ l : List Chunk, l.Pairwise sep →
    (∀ e ∈ l, 0 < e.size ∧ chunkEnd e < U) →
    (∀ e ∈ l, chunkEnd e ≤ c.address ∨ chunkEnd c ≤ e.address) →
    (∃ e ∈ l, e.address ≤ chunkEnd c) →
    ∃ q, insertLoop c l = (some q, 0) ∧
      q.Pairwise sep ∧
      (∀ e ∈ q, 0 < e.size ∧ chunkEnd e < U) ∧
      (∀ x, covered x q ↔ covered x l ∨ (c.address ≤ x ∧ x < chunkEnd c)) ∧
      (∀ b : Chunk, (∀ e ∈ l, sep b e) → sep b c → ∀ e ∈ q, sep b e) := by
  intro l
  induction l with
  | nil =>
    intro _ _ _ hreach
    simp at hreach
  | cons e rest ih =>
    intro hInv hB hno hreach
    rw [List.pairwise_cons] at hInv
    obtain ⟨heall, hrest⟩ := hInv
    have hBe := hB e (List.mem_cons_self _ _)
    have hEpos : 0 < e.size := hBe.1
    have hEU : e.address + e.size < U := hBe.2
    have hmodE : (e.address + e.size) % U = e.address + e.size := Nat.mod_eq_of_lt hEU
    have hmodC : (c.address + c.size) % U = c.address + c.size := Nat.mod_eq_of_lt hcU
    have hnoE : e.address + e.size ≤ c.address ∨ c.address + c.size ≤ e.address := by
      have h2 := hno e (List.mem_cons_self _ _)
      simpa [chunkEnd] using h2
    have hovneg : ¬((e.address + e.size) % U > c.address ∧
        (c.address + c.size) % U > e.address) := by
      rw [hmodE, hmodC]; omega
    by_cases h1 : (e.address + e.size) % U = c.address
    · -- the new chunk touches e exactly from above: merge widens e upward
      have h1e : e.address + e.size = c.address := by rwa [hmodE] at h1
      have hcm : checkMergeChunk c e = some ⟨e.address, (e.size + c.size) % U⟩ := by
        simp [checkMergeChunk, h1]
      have hmodS : (e.size + c.size) % U = e.size + c.size :=
        Nat.mod_eq_of_lt (by omega)
      have habove : ∀ a ∈ rest, chunkEnd a ≤
          (⟨e.address, (e.size + c.size) % U⟩ : Chunk).address := by
        intro a ha
        show chunkEnd a ≤ e.address
        have h2 := heall a ha
        simp only [sep] at h2
        omega
      have hmpos : 0 < (⟨e.address, (e.size + c.size) % U⟩ : Chunk).size := by
        show 0 < (e.size + c.size) % U
        rw [hmodS]; omega
      have hmU2 : (⟨e.address, (e.size + c.size) % U⟩ : Chunk).address +
          (⟨e.address, (e.size + c.size) % U⟩ : Chunk).size < U := by
        show e.address + (e.size + c.size) % U < U
        rw [hmodS]; omega
      obtain ⟨q, hq, hPW, hBq, hcov, hsepq⟩ :=
        cascade_spec ⟨e.address, (e.size + c.size) % U⟩ rest hrest
          (fun a ha => hB a (List.mem_cons_of_mem _ ha)) hmpos hmU2 habove
      refine ⟨q, ?_, hPW, hBq, ?_, ?_⟩
      · simp only [insertLoop, hcm]
        rw [hq, if_neg hovneg]
      · intro x
        rw [hcov x, covered_cons]
        have hM : ((⟨e.address, (e.size + c.size) % U⟩ : Chunk).address ≤ x ∧
            x < chunkEnd ⟨e.address, (e.size + c.size) % U⟩) ↔
            ((e.address ≤ x ∧ x < chunkEnd e) ∨ (c.address ≤ x ∧ x < chunkEnd c)) := by
          show (e.address ≤ x ∧ x < e.address + (e.size + c.size) % U) ↔ _
          simp only [chunkEnd]
          rw [hmodS]
          omega
        rw [hM]
        exact or_left_comm.trans or_assoc.symm
      · intro b hball hbc
        apply hsepq
        · intro a ha
          exact hball a (List.mem_cons_of_mem _ ha)
        · simp only [sep, chunkEnd] at hbc ⊢
          show e.address + (e.size + c.size) % U < b.address
          rw [hmodS]; omega
    · by_cases h2 : (c.address + c.size) % U = e.address
      · -- the new chunk touches e exactly from below: merge widens e downward
        have h2e : c.address + c.size = e.address := by rwa [hmodC] at h2
        have hcm : checkMergeChunk c e = some ⟨c.address, (e.size + c.size) % U⟩ := by
          simp [checkMergeChunk, h1, h2]
        have hmodS : (e.size + c.size) % U = e.size + c.size :=
          Nat.mod_eq_of_lt (by omega)
        have habove : ∀ a ∈ rest, chunkEnd a ≤
            (⟨c.address, (e.size + c.size) % U⟩ : Chunk).address := by
          intro a ha
          show chunkEnd a ≤ c.address
          have hsa := heall a ha
          have hna := hno a (List.mem_cons_of_mem _ ha)
          simp only [sep, chunkEnd] at hsa hna ⊢
          omega
        have hmpos : 0 < (⟨c.address, (e.size + c.size) % U⟩ : Chunk).size := by
          show 0 < (e.size + c.size) % U
          rw [hmodS]; omega
        have hmU2 : (⟨c.address, (e.size + c.size) % U⟩ : Chunk).address +
            (⟨c.address, (e.size + c.size) % U⟩ : Chunk).size < U := by
          show c.address + (e.size + c.size) % U < U
          rw [hmodS]; omega
        obtain ⟨q, hq, hPW, hBq, hcov, hsepq⟩ :=
          cascade_spec ⟨c.address, (e.size + c.size) % U⟩ rest hrest
            (fun a ha => hB a (List.mem_cons_of_mem _ ha)) hmpos hmU2 habove
        refine ⟨q, ?_, hPW, hBq, ?_, ?_⟩
        · simp only [insertLoop, hcm]
          rw [hq, if_neg hovneg]
        · intro x
          rw [hcov x, covered_cons]
          have hM : ((⟨c.address, (e.size + c.size) % U⟩ : Chunk).address ≤ x ∧
              x < chunkEnd ⟨c.address, (e.size + c.size) % U⟩) ↔
              ((e.address ≤ x ∧ x < chunkEnd e) ∨ (c.address ≤ x ∧ x < chunkEnd c)) := by
            show (c.address ≤ x ∧ x < c.address + (e.size + c.size) % U) ↔ _
            simp only [chunkEnd]
            rw [hmodS]
            omega
          rw [hM]
          exact or_left_comm.trans or_assoc.symm
        · intro b hball hbc
          apply hsepq
          · intro a ha
            exact hball a (List.mem_cons_of_mem _ ha)
          · have hbe := hball e (List.mem_cons_self _ _)
            simp only [sep, chunkEnd] at hbe ⊢
            show c.address + (e.size + c.size) % U < b.address
            rw [hmodS]; omega
      · -- no touch with e
        have hcm : checkMergeChunk c e = none := by
          simp [checkMergeChunk, h1, h2]
        rw [hmodE] at h1
        rw [hmodC] at h2
        by_cases hge : c.address ≥ e.address
        · -- insert the new chunk right before e
          have habove : ∀ a ∈ e :: rest, chunkEnd a ≤ c.address := by
            intro a ha
            rcases List.mem_cons.mp ha with ha | ha
            · subst ha
              simp only [chunkEnd]
              omega
            · have hsa := heall a ha
              simp only [sep, chunkEnd] at hsa ⊢
              omega
          obtain ⟨q, hq, hPW, hBq, hcov, hsepq⟩ :=
            cascade_spec c (e :: rest)
              (by rw [List.pairwise_cons]; exact ⟨heall, hrest⟩) hB hc hcU habove
          refine ⟨q, ?_, hPW, hBq, ?_, ?_⟩
          · simp only [insertLoop, hcm]
            rw [if_pos hge, hq, if_neg hovneg]
          · intro x
            exact hcov x
          · intro b hball hbc
            exact hsepq b hball hbc
        · -- the new chunk lies strictly below e: recurse into the tail
          push_neg at hge
          have hEc2 : c.address + c.size < e.address := by omega
          have hreach2 : ∃ a ∈ rest, a.address ≤ chunkEnd c := by
            obtain ⟨w, hw, hwa⟩ := hreach
            rcases List.mem_cons.mp hw with hw | hw
            · subst hw
              exfalso
              simp only [chunkEnd] at hwa
              omega
            · exact ⟨w, hw, hwa⟩
          obtain ⟨q0, hq0, hPW0, hBq0, hcov0, hsepq0⟩ :=
            ih hrest (fun a ha => hB a (List.mem_cons_of_mem _ ha))
              (fun a ha => hno a (List.mem_cons_of_mem _ ha)) hreach2
          refine ⟨e :: q0, ?_, ?_, ?_, ?_, ?_⟩
          · simp only [insertLoop, hcm, hq0]
            rw [if_neg (not_le.mpr hge), if_neg hovneg]
            rfl
          · rw [List.pairwise_cons]
            refine ⟨?_, hPW0⟩
            intro a ha
            refine hsepq0 e heall ?_ a ha
            simp only [sep, chunkEnd]
            omega
          · intro a ha
            rcases List.mem_cons.mp ha with ha | ha
            · subst ha
              exact hBe
            · exact hBq0 a ha
          · intro x
            rw [covered_cons, covered_cons, hcov0 x]
            exact or_assoc.symm
          · intro b hball hbc a ha
            rcases List.mem_cons.mp ha with ha | ha
            · subst ha
              exact hball _ (List.mem_cons_self _ _)
            · exact hsepq0 b (fun a2 ha2 => hball a2 (List.mem_cons_of_mem _ ha2)) hbc a ha

/-- `addChunk` under the same side conditions (allowing the empty
list, where `push_front` is correct). -/
theorem addChunk_spec (c : Chunk) (l : List Chunk)
    (hInv : l.Pairwise sep)
    (hB : ∀ e ∈ l, 0 < e.size ∧ chunkEnd e < U)
    (hc : 0 < c.size) (hcU : c.address + c.size < U)
    (hno : ∀ e ∈ l, chunkEnd e ≤ c.address ∨ chunkEnd c ≤ e.address)
    (hreach : l = [] ∨ ∃ e ∈ l, e.address ≤ chunkEnd c) :
    (addChunk c l).2 = 0 ∧
      (addChunk c l).1.Pairwise sep ∧
      (∀ e ∈ (addChunk c l).1, 0 < e.size ∧ chunkEnd e < U) ∧
      (∀ x, covered x (addChunk c l).1 ↔ covered x l ∨
        (c.address ≤ x ∧ x < chunkEnd c)) := by
  rcases hreach with rfl | hreach
  · refine ⟨?_, ?_, ?_, ?_⟩
    · rfl
    · simp [addChunk, insertLoop]
    · intro e he
      simp only [addChunk, insertLoop, List.mem_singleton] at he
      subst he
      exact ⟨hc, hcU⟩
    · intro x
      simp [addChunk, insertLoop, covered_cons, covered_nil, chunkEnd]
  · obtain ⟨q, hq, hPW, hBq, hcov, _⟩ := insertLoop_spec c hc hcU l hInv hB hno hreach
    have hA : addChunk c l = (q, 0) := by simp [addChunk, hq]
    rw [hA]
    exact ⟨rfl, hPW, hBq, hcov⟩

/-- The side condition under which one insertion is well-behaved: the
new chunk has positive size, fits in 32 bits, overlaps no present
chunk, and does not lie strictly below the whole collection. -/
def okInsertB (c : Chunk) (l : List Chunk) : Bool :=
  decide (0 < c.size ∧ c.address + c.size < U) &&
  l.all (fun e => decide (chunkEnd e ≤ c.address ∨ chunkEnd c ≤ e.address)) &&
  (l.isEmpty || l.any (fun e => decide (e.address ≤ chunkEnd c)))

/-- Every chunk of the sequence satisfies `okInsertB` against the
collection as it stands when that chunk is inserted. -/
def seqOKB (l : List Chunk) : List Chunk → Bool
  | [] => true
  | c :: cs => okInsertB c l && seqOKB (addChunk c l).1 cs

theorem foldl_accumStep_spec :
    ∀ (cs : List Chunk) (l : List Chunk) (n : Nat),
    l.Pairwise sep → (∀ e ∈ l, 0 < e.size ∧ chunkEnd e < U) →
    seqOKB l cs = true →
    (cs.foldl accumStep (l, n)).2 = n ∧
      (cs.foldl accumStep (l, n)).1.Pairwise sep ∧
      (∀ e ∈ (cs.foldl accumStep (l, n)).1, 0 < e.size ∧ chunkEnd e < U) ∧
      (∀ x, covered x (cs.foldl accumStep (l, n)).1 ↔
        covered x l ∨ ∃ c ∈ cs, c.address ≤ x ∧ x < chunkEnd c) := by
  intro cs
  induction cs with
  | nil =>
    intro l n hPW hB _
    refine ⟨rfl, hPW, hB, ?_⟩
    intro x
    simp
  | cons c cs ih =>
    intro l n hPW hB hseq
    simp only [seqOKB, Bool.and_eq_true] at hseq
    obtain ⟨hok, hseq2⟩ := hseq
    simp only [okInsertB, Bool.and_eq_true, Bool.or_eq_true, decide_eq_true_eq,
      List.all_eq_true, List.any_eq_true, List.isEmpty_iff] at hok
    obtain ⟨⟨⟨hc, hcU⟩, hno⟩, hreach⟩ := hok
    have hreach2 : l = [] ∨ ∃ e ∈ l, e.address ≤ chunkEnd c := by
      rcases hreach with h | ⟨e, he, hd⟩
      · exact Or.inl h
      · exact Or.inr ⟨e, he, hd⟩
    obtain ⟨hn0, hPW2, hB2, hcov2⟩ := addChunk_spec c l hPW hB hc hcU hno hreach2
    have hstep : accumStep (l, n) c = ((addChunk c l).1, n) := by
      simp [accumStep, hn0]
    rw [List.foldl_cons, hstep]
    obtain ⟨ha, hb, hcth, hd⟩ := ih (addChunk c l).1 n hPW2 hB2 hseq2
    refine ⟨ha, hb, hcth, ?_⟩
    intro x
    rw [hd x, hcov2 x]
    constructor
    · rintro ((h | h) | h)
      · exact Or.inl h
      · exact Or.inr ⟨c, List.mem_cons_self _ _, h⟩
      · obtain ⟨a, haa, hab⟩ := h
        exact Or.inr ⟨a, List.mem_cons_of_mem _ haa, hab⟩
    · rintro (h | ⟨a, haa, hab⟩)
      · exact Or.inl (Or.inl h)
      · rcases List.mem_cons.mp haa with rfl | haa
        · exact Or.inl (Or.inr hab)
        · exact Or.inr ⟨a, haa, hab⟩

/-- C1 (amended): for every sequence of inserted chunks in which each
chunk has positive size, fits in 32 bits, overlaps no previously
accumulated chunk, and does not lie strictly below (with a gap) the
whole collection so far, the resulting collection is pairwise
non-touching and non-overlapping and covers exactly the bytes of the
inserted chunks — i.e. it holds exactly one element per disjoint
maximal contiguous region.  (Without the no-overlap proviso the
post-condition fails: overlapping chunks are kept as separate elements;
without the not-strictly-below proviso the source `push_front`s the
chunk at the wrong end of its descending list, which can later leave
two touching chunks unmerged.) -/
theorem c1_accumulator_invariant_amended (cs : List Chunk)
    (h : seqOKB [] cs = true) :
    (accumulate cs).1.Pairwise separated ∧
    (∀ x, covered x (accumulate cs).1 ↔
      ∃ c ∈ cs, c.address ≤ x ∧ x < chunkEnd c) := by
  obtain ⟨_, hPW, _, hcov⟩ :=
    foldl_accumStep_spec cs [] 0 (by simp) (by simp) h
  constructor
  · exact List.Pairwise.imp (fun hs => Or.inr hs) hPW
  · intro x
    rw [accumulate, hcov x]
    simp [covered_nil]

/-- Witness for C1: the three-chunk sequence of the cascading-merge
example satisfies the side condition, and the theorem applies to it. -/
theorem c1_accumulator_invariant_witness :
    seqOKB [] [⟨0, 4⟩, ⟨10, 4⟩, ⟨4, 6⟩] = true ∧
    ((accumulate [⟨0, 4⟩, ⟨10, 4⟩, ⟨4, 6⟩]).1.Pairwise separated ∧
      (∀ x, covered x (accumulate [⟨0, 4⟩, ⟨10, 4⟩, ⟨4, 6⟩]).1 ↔
        ∃ c ∈ [(⟨0, 4⟩ : Chunk), ⟨10, 4⟩, ⟨4, 6⟩], c.address ≤ x ∧ x < chunkEnd c)) :=
  ⟨by decide, c1_accumulator_invariant_amended _ (by decide)⟩

/-! ## The record parser (`fromHex`, line parsing, driver loop) -/

/-- The distinct failure signals of `processHexFile`.  `indexErr`
models an out-of-bounds `span::subspan` (undefined behaviour in the
C++; proved unreachable), the others are the four `throwError`
messages: `"Invalid data in hex file"`, `"Number too large"`,
`"Incorrect checksum"`, `"EOF record before end of file"`. -/
inductive HexErr where
  | indexErr
  | formatErr
  | numberTooLarge
  | incorrectChecksum
  | eofBeforeEnd
deriving Repr, DecidableEq

/-- `std::isxdigit` on ASCII. -/
def isHexDigitA (c : Char) : Bool :=
  (decide ('0' ≤ c) && decide (c ≤ '9')) ||
  (decide ('a' ≤ c) && decide (c ≤ 'f')) ||
  (decide ('A' ≤ c) && decide (c ≤ 'F'))

/-- `std::tolower` on ASCII. -/
def toLowerA (c : Char) : Char :=
  if 'A' ≤ c ∧ c ≤ 'Z' then Char.ofNat (c.toNat + 32) else c

/-- The value of one hex digit, as computed by the loop body of
`fromHex`: `digit = tolower(digit); digit >= 'a' ? digit - 'a' + 10 :
digit - '0'`. -/
def hexDigitVal (c : Char) : Nat :=
  let d := toLowerA c
  if 'a' ≤ d then d.toNat - 'a'.toNat + 10 else d.toNat - '0'.toNat

/-- The accumulating loop of `fromHex` (`n = n * 16 + value`; with at
most 8 digits the `unsigned` accumulator cannot wrap, so no `% U` is
needed). -/
def fromHexGo (n : Nat) : List Char → Except HexErr Nat
  | [] => .ok n
  | digit :: rest =>
    if isHexDigitA digit then fromHexGo (n * 16 + hexDigitVal digit) rest
    else .error .formatErr

/-- `fromHex` from the source: reject more than `2 * sizeof(unsigned)
= 8` digits first (`"Number too large"`), then fold the digits
big-endian, rejecting any non-hex character (`"Invalid data..."`). -/
def fromHex (hex : List Char) : Except HexErr Nat :=
  if hex.length > 8 then .error .numberTooLarge
  else fromHexGo 0 hex

/-- The pure big-endian value of a hex-digit string. -/
def hexValue (cs : List Char) : Nat :=
  cs.foldl (fun n c => n * 16 + hexDigitVal c) 0

/-- `std::span::subspan(off, len)`: out of range is UB in C++,
modelled as the distinguished `indexErr`. -/
def subspan (l : List Char) (off len : Nat) : Except HexErr (List Char) :=
  if off + len ≤ l.length then .ok ((l.drop off).take len) else .error .indexErr

/-- The checksum loop `for (i = 1; i < line.size() - 1; i += 2)
checksum += fromHex(line.subspan(i, 2));` on an `unsigned char`
accumulator (wraps mod 256).  `fuel` is a structural bound on the
iteration count (any value ≥ the number of iterations gives the loop's
behaviour; the caller passes `line.length`). -/
def checksumGo (line : List Char) : Nat → Nat → Nat → Except HexErr Nat
  | 0, _, acc => .ok acc
  | fuel + 1, i, acc =>
    if i < line.length - 1 then
      (subspan line i 2).bind fun s =>
      (fromHex s).bind fun v =>
      checksumGo line fuel (i + 2) ((acc + v) % 256)
    else .ok acc

def checksumOf (line : List Char) : Except HexErr Nat :=
  checksumGo line line.length 1 0

/-- The byte values of the consecutive 2-hex-digit groups of a
string. -/
def pairBytes : List Char → List Nat
  | a :: b :: rest => (hexDigitVal a * 16 + hexDigitVal b) :: pairBytes rest
  | _ => []

/-- The record checksum as the spec states it: the sum, modulo 256, of
every byte value from the byte-count field through the checksum byte
(i.e. all 2-digit groups after the leading `:`). -/
def checksumSum (line : List Char) : Nat :=
  (pairBytes (line.drop 1)).sum % 256

def dataOffset : Nat := 1 + 2 + 4 + 2
def minLineSize : Nat := dataOffset + 0 + 2
def maxLineSize : Nat := minLineSize + 2 * 255

/-- The per-line mutable state of `processHexFile`. -/
structure PState where
  chunks : List Chunk
  numOverlapping : Nat
  baseAddress : Nat
  foundEof : Bool
  numStartAddresses : Nat
  startAddress : Nat
  numDataRecords : Nat
  maxDataSize : Nat
deriving Repr, DecidableEq

def initState : PState :=
  { chunks := [], numOverlapping := 0, baseAddress := 0, foundEof := false,
    numStartAddresses := 0, startAddress := 0, numDataRecords := 0, maxDataSize := 0 }

/-- The body of the `while (std::getline(...))` loop of
`processHexFile`, for one line (without the trailing newline), in the
source's order: EOF-after-EOF check, framing and length checks, field
decoding, checksum check, then the `switch` on the record type. -/
def processLine (st : PState) (line : List Char) : Except HexErr PState :=
  if st.foundEof then .error .eofBeforeEnd
  else if line.length < minLineSize then .error .formatErr
  else if line.length > maxLineSize then .error .formatErr
  else if line.head? ≠ some ':' then .error .formatErr
  else
    (subspan line 1 2).bind fun cntS =>
    (fromHex cntS).bind fun dataSize =>
    if line.length ≠ minLineSize + 2 * dataSize then .error .formatErr
    else
      (subspan line 3 4).bind fun addrS =>
      (fromHex addrS).bind fun rawAddr =>
      let address := (st.baseAddress + rawAddr) % U
      (subspan line 7 2).bind fun typS =>
      (fromHex typS).bind fun recordType =>
      (subspan line dataOffset (2 * dataSize)).bind fun dataSpan =>
      (checksumOf line).bind fun checksum =>
      if checksum ≠ 0 then .error .incorrectChecksum
      else
        match recordType with
        | 0 =>
          let p := addChunk ⟨address, dataSize⟩ st.chunks
          .ok { st with
            chunks := p.1,
            numOverlapping := st.numOverlapping + p.2,
            numDataRecords := st.numDataRecords + 1,
            maxDataSize := max st.maxDataSize dataSize }
        | 1 =>
          if dataSize ≠ 0 then .error .formatErr
          else .ok { st with foundEof := true }
        | 2 =>
          if dataSize ≠ 2 then .error .formatErr
          else (fromHex dataSpan).bind fun v =>
            .ok { st with baseAddress := (v <<< 4) % U }
        | 3 =>
          if dataSize ≠ 4 then .error .formatErr
          else
            (subspan line dataOffset 4).bind fun s1 =>
            (fromHex s1).bind fun v1 =>
            (subspan line (dataOffset + 4) 4).bind fun s2 =>
            (fromHex s2).bind fun v2 =>
            .ok { st with
              startAddress := ((v1 <<< 4) + v2) % U,
              numStartAddresses := st.numStartAddresses + 1 }
        | 4 =>
          if dataSize ≠ 2 then .error .formatErr
          else (fromHex dataSpan).bind fun v =>
            .ok { st with baseAddress := (v <<< 16) % U }
        | 5 =>
          if dataSize ≠ 4 then .error .formatErr
          else (fromHex dataSpan).bind fun v =>
            .ok { st with
              startAddress := v,
              numStartAddresses := st.numStartAddresses + 1 }
        | _ => .error .formatErr

/-- The driver loop: feed lines in order, starting at 1-based line
number `i`; the first failure is re-thrown annotated with the current
line number (`"\nLine {iLine}: ..."`). -/
def processLines : Nat → PState → List (List Char) → Except (HexErr × Nat) PState
  | _, st, [] => .ok st
  | i, st, l :: rest =>
    match processLine st l with
    | .error e => .error (e, i)
    | .ok st2 => processLines (i + 1) st2 rest

def processHexFile (lines : List (List Char)) : Except (HexErr × Nat) PState :=
  processLines 1 initState lines

/-- A correctly framed record line: leading `:`, every following
character an ASCII hex digit, and total length exactly `11 + 2N` where
`N` is the value of the 2-digit byte-count field. -/
def wellFramed (line : List Char) : Bool :=
  decide (line.head? = some ':') &&
  (line.drop 1).all isHexDigitA &&
  decide (line.length ≤ maxLineSize) &&
  decide (line.length = minLineSize + 2 * hexValue ((line.drop 1).take 2))

-- Sanity checks on concrete lines.
example : processLine initState (":00000001FF".toList) =
    .ok { initState with foundEof := true } := rfl
example : wellFramed (":00000001FF".toList) = true := by decide
example : checksumSum (":00000001FF".toList) = 0 := by decide
example : processLine initState (":0B0010006164647265737320676170A7".toList) =
    .ok { initState with chunks := [⟨16, 11⟩], numDataRecords := 1, maxDataSize := 11 } := rfl
example : processLine initState (":02000002F0000C".toList) =
    .ok { initState with baseAddress := 983040 } := rfl
example : processLine initState (":00000001FE".toList) = .error .incorrectChecksum := rfl
example : processLine initState (":02000000FF".toList) = .error .formatErr := rfl

theorem processLines_append (xs ys : List (List Char)) :
    ∀ (i : Nat) (st : PState), processLines i st (xs ++ ys) =
      match processLines i st xs with
      | .ok st2 => processLines (i + xs.length) st2 ys
      | .error e => .error e := by
  induction xs with
  | nil =>
    intro i st
    simp [processLines]
  | cons l xs ih =>
    intro i st
    cases h : processLine st l with
    | error e => simp [processLines, h]
    | ok st2 =>
      simp only [List.cons_append, processLines, h]
      show processLines (i + 1) st2 (xs ++ ys) = _
      rw [ih (i + 1) st2]
      have harr : i + (l :: xs).length = i + 1 + xs.length := by
        simp [List.length_cons]
        omega
      rw [harr]

/-- C8: if the first `k` lines parse successfully and leave the
EOF-record flag set (i.e. line `k` was an EndOfFile record), then any
further line — whatever its content — makes the whole run fail with
the sequence error `"EOF record before end of file"` reported at line
`k + 1`. -/
theorem c8_record_after_eof (lines : List (List Char)) (k : Nat) (st : PState)
    (h1 : processLines 1 initState (lines.take k) = .ok st)
    (h2 : st.foundEof = true)
    (h3 : k < lines.length) :
    processHexFile lines = .error (.eofBeforeEnd, k + 1) := by
  have hsplit := processLines_append (lines.take k) (lines.drop k) 1 initState
  rw [List.take_append_drop] at hsplit
  rw [processHexFile, hsplit, h1]
  have hlen : (lines.take k).length = k := by
    simp [List.length_take]
    omega
  obtain ⟨l, rest, hdrop⟩ := List.exists_cons_of_ne_nil
    (l := lines.drop k) (by
      intro hnil
      have hz : (lines.drop k).length = 0 := by rw [hnil]; rfl
      simp at hz
      omega)
  rw [hdrop, hlen]
  simp only [processLines, processLine, h2, if_true]
  have : 1 + k = k + 1 := Nat.add_comm 1 k
  rw [this]

/-- Witness for C8: an EOF record on line 1 followed by a second line
fails with the sequence error at line 2. -/
theorem c8_record_after_eof_witness :
    processHexFile [":00000001FF".toList, ":00000001FF".toList] =
      .error (.eofBeforeEnd, 2) :=
  c8_record_after_eof _ 1 { initState with foundEof := true } rfl rfl (by decide)

theorem fromHexGo_ok (cs : List Char) :
    ∀ n : Nat, (∀ c ∈ cs, isHexDigitA c = true) →
    fromHexGo n cs = .ok (cs.foldl (fun n c => n * 16 + hexDigitVal c) n) := by
  induction cs with
  | nil =>
    intro n _
    rfl
  | cons d rest ih =>
    intro n h
    have hd := h d (List.mem_cons_self _ _)
    simp only [fromHexGo, hd, if_true, List.foldl_cons]
    exact ih _ (fun c hc => h c (List.mem_cons_of_mem _ hc))

theorem fromHexGo_err (cs : List Char) :
    ∀ n : Nat, (∃ c ∈ cs, isHexDigitA c = false) →
    fromHexGo n cs = .error .formatErr := by
  induction cs with
  | nil =>
    intro n h
    simp at h
  | cons d rest ih =>
    intro n h
    by_cases hd : isHexDigitA d = true
    · simp only [fromHexGo, hd, if_true]
      apply ih
      obtain ⟨c, hc, hcf⟩ := h
      rcases List.mem_cons.mp hc with rfl | hc
      · rw [hd] at hcf
        cases hcf
      · exact ⟨c, hc, hcf⟩
    · simp only [fromHexGo, Bool.not_eq_true] at hd ⊢
      rw [hd]
      rfl

theorem foldl_hex_ofDigits (cs : List Char) :
    ∀ n : Nat, cs.foldl (fun n c => n * 16 + hexDigitVal c) n =
      n * 16 ^ cs.length + Nat.ofDigits 16 ((cs.map hexDigitVal).reverse) := by
  induction cs with
  | nil =>
    intro n
    simp [Nat.ofDigits]
  | cons d rest ih =>
    intro n
    simp only [List.foldl_cons, List.map_cons, List.reverse_cons]
    rw [ih, Nat.ofDigits_append]
    simp only [List.length_reverse, List.length_map, List.length_cons,
      Nat.ofDigits_singleton]
    ring

/-- The big-endian value of a hex string. -/
theorem hexValue_big_endian (cs : List Char) :
    hexValue cs = Nat.ofDigits 16 ((cs.map hexDigitVal).reverse) := by
  rw [hexValue, foldl_hex_ofDigits]
  simp

/-- C6: `fromHex` rejects any input longer than 8 digits (2 hex digits
per byte of the 32-bit `unsigned` target) with the distinct overflow
error, before looking at any character; within capacity it rejects
inputs containing a non-hex character with the format error, and
otherwise returns the big-endian value of the digit string. -/
theorem c6_fromHex_spec (cs : List Char) :
    (8 < cs.length → fromHex cs = .error .numberTooLarge) ∧
    (cs.length ≤ 8 →
      ((¬ ∀ c ∈ cs, isHexDigitA c = true) → fromHex cs = .error .formatErr) ∧
      ((∀ c ∈ cs, isHexDigitA c = true) →
        fromHex cs = .ok (Nat.ofDigits 16 ((cs.map hexDigitVal).reverse)))) := by
  refine ⟨?_, ?_⟩
  · intro h
    rw [fromHex, if_pos (by omega)]
  · intro h
    refine ⟨?_, ?_⟩
    · intro hbad
      rw [fromHex, if_neg (by omega)]
      apply fromHexGo_err
      push_neg at hbad
      obtain ⟨c, hc, hcf⟩ := hbad
      exact ⟨c, hc, by simpa using hcf⟩
    · intro hgood
      rw [fromHex, if_neg (by omega), fromHexGo_ok cs 0 hgood]
      rw [show (cs.foldl (fun n c => n * 16 + hexDigitVal c) 0) = hexValue cs from rfl]
      rw [hexValue_big_endian]

/-- Witness for C6: `"1A2"` is within capacity and all hex, so the
decoder returns its big-endian value. -/
theorem c6_fromHex_witness :
    fromHex ("1A2".toList) =
      .ok (Nat.ofDigits 16 ((("1A2".toList).map hexDigitVal).reverse)) :=
  ((c6_fromHex_spec ("1A2".toList)).2 (by decide)).2 (by decide)

theorem subspan_ok (l : List Char) (off len : Nat) (h : off + len ≤ l.length) :
    subspan l off len = .ok ((l.drop off).take len) := by
  rw [subspan, if_pos h]

theorem bind_ok {α β : Type} (a : α) (f : α → Except HexErr β) :
    (Except.ok a : Except HexErr α).bind f = f a := rfl

theorem bind_err {α β : Type} (e : HexErr) (f : α → Except HexErr β) :
    (Except.error e : Except HexErr α).bind f = .error e := rfl

theorem fromHex_ok (cs : List Char) (h1 : ∀ c ∈ cs, isHexDigitA c = true)
    (h2 : cs.length ≤ 8) : fromHex cs = .ok (hexValue cs) := by
  rw [fromHex, if_neg (by omega), fromHexGo_ok cs 0 h1]
  rfl

theorem hexValue_pair (a b : Char) :
    hexValue [a, b] = hexDigitVal a * 16 + hexDigitVal b := by
  simp [hexValue]

theorem fromHexGo_shape (cs : List Char) :
    ∀ n : Nat, (∃ v, fromHexGo n cs = .ok v) ∨ fromHexGo n cs = .error .formatErr := by
  induction cs with
  | nil =>
    intro n
    exact Or.inl ⟨n, rfl⟩
  | cons d rest ih =>
    intro n
    by_cases hd : isHexDigitA d = true
    · simp only [fromHexGo, hd, if_true]
      exact ih _
    · simp only [fromHexGo, Bool.not_eq_true] at hd ⊢
      rw [hd]
      exact Or.inr rfl

theorem fromHex_shape (cs : List Char) :
    (∃ v, fromHex cs = .ok v) ∨ fromHex cs = .error .formatErr ∨
      fromHex cs = .error .numberTooLarge := by
  rw [fromHex]
  by_cases h : cs.length > 8
  · rw [if_pos h]
    exact Or.inr (Or.inr rfl)
  · rw [if_neg h]
    rcases fromHexGo_shape cs 0 with h2 | h2
    · exact Or.inl h2
    · exact Or.inr (Or.inl h2)

theorem checksumGo_shape (line : List Char) :
    ∀ (fuel i acc : Nat), (∃ v, checksumGo line fuel i acc = .ok v) ∨
      checksumGo line fuel i acc = .error .formatErr := by
  intro fuel
  induction fuel with
  | zero =>
    intro i acc
    exact Or.inl ⟨acc, rfl⟩
  | succ fuel ih =>
    intro i acc
    rw [checksumGo]
    by_cases h : i < line.length - 1
    · rw [if_pos h]
      rw [subspan_ok line i 2 (by omega), bind_ok]
      have hlen : ((line.drop i).take 2).length ≤ 8 := by
        simp [List.length_take]
      rcases fromHexGo_shape ((line.drop i).take 2) 0 with ⟨v, hv⟩ | hv
      · rw [fromHex, if_neg (by omega), hv, bind_ok]
        exact ih _ _
      · rw [fromHex, if_neg (by omega), hv]
        exact Or.inr rfl
    · rw [if_neg h]
      exact Or.inl ⟨acc, rfl⟩

theorem checksumGo_spec (body : List Char)
    (hhex : ∀ c ∈ body, isHexDigitA c = true) (heven : body.length % 2 = 0) :
    ∀ (fuel j acc : Nat), body.length ≤ 2 * j + 2 * fuel → acc < 256 →
    checksumGo (':' :: body) fuel (1 + 2 * j) acc =
      .ok ((acc + (pairBytes (body.drop (2 * j))).sum) % 256) := by
  intro fuel
  induction fuel with
  | zero =>
    intro j acc hfuel hacc
    rw [checksumGo]
    have hnil : body.drop (2 * j) = [] := List.drop_eq_nil_of_le (by omega)
    rw [hnil]
    simp [pairBytes, Nat.mod_eq_of_lt hacc]
  | succ fuel ih =>
    intro j acc hfuel hacc
    rw [checksumGo]
    have hlen : (':' :: body).length = body.length + 1 := by simp
    by_cases hcond : 1 + 2 * j < (':' :: body).length - 1
    · rw [if_pos hcond]
      rw [hlen] at hcond
      have h2j : 2 * j + 2 ≤ body.length := by omega
      have hdrop1 : (':' :: body).drop (1 + 2 * j) = body.drop (2 * j) := by
        rw [Nat.add_comm 1 (2 * j)]
        exact List.drop_succ_cons
      have ha : body.drop (2 * j) = body.get ⟨2 * j, by omega⟩ :: body.drop (2 * j + 1) := by
        rw [← List.getElem_cons_drop body (2 * j) (by omega)]
        rfl
      have hb : body.drop (2 * j + 1) =
          body.get ⟨2 * j + 1, by omega⟩ :: body.drop (2 * j + 2) := by
        rw [← List.getElem_cons_drop body (2 * j + 1) (by omega)]
        rfl
      rw [subspan_ok _ _ _ (by rw [hlen]; omega), bind_ok, hdrop1, ha, hb]
      have htake : (body.get ⟨2 * j, by omega⟩ ::
          body.get ⟨2 * j + 1, by omega⟩ :: body.drop (2 * j + 2)).take 2 =
          [body.get ⟨2 * j, by omega⟩, body.get ⟨2 * j + 1, by omega⟩] := rfl
      rw [htake]
      have hfa : fromHex [body.get ⟨2 * j, by omega⟩, body.get ⟨2 * j + 1, by omega⟩] =
          .ok (hexDigitVal (body.get ⟨2 * j, by omega⟩) * 16 +
            hexDigitVal (body.get ⟨2 * j + 1, by omega⟩)) := by
        rw [fromHex_ok _ ?_ (by simp), hexValue_pair]
        intro c hc
        rcases List.mem_cons.mp hc with rfl | hc
        · exact hhex _ (List.get_mem _ _ _)
        · rw [List.mem_singleton] at hc
          subst hc
          exact hhex _ (List.get_mem _ _ _)
      rw [hfa, bind_ok]
      have hstep : 1 + 2 * j + 2 = 1 + 2 * (j + 1) := by omega
      rw [hstep, ih (j + 1) _ (by omega) (Nat.mod_lt _ (by omega))]
      have hpair : pairBytes (body.get ⟨2 * j, by omega⟩ ::
          body.get ⟨2 * j + 1, by omega⟩ :: body.drop (2 * j + 2)) =
          (hexDigitVal (body.get ⟨2 * j, by omega⟩) * 16 +
            hexDigitVal (body.get ⟨2 * j + 1, by omega⟩)) ::
          pairBytes (body.drop (2 * j + 2)) := rfl
      have hdrop2 : body.drop (2 * (j + 1)) = body.drop (2 * j + 2) := by
        have he : 2 * (j + 1) = 2 * j + 2 := by omega
        rw [he]
      rw [hdrop2, hpair]
      simp only [List.sum_cons]
      congr 1
      omega
    · rw [if_neg hcond]
      rw [hlen] at hcond
      have hnil : body.drop (2 * j) = [] := by
        apply List.drop_eq_nil_of_le
        omega
      rw [hnil]
      simp [pairBytes, Nat.mod_eq_of_lt hacc]

/-- On a framed line the checksum loop computes the sum, modulo 256, of
all the 2-digit byte values after the leading `:`. -/
theorem checksumOf_spec (body : List Char)
    (hhex : ∀ c ∈ body, isHexDigitA c = true) (heven : body.length % 2 = 0) :
    checksumOf (':' :: body) = .ok (checksumSum (':' :: body)) := by
  have h := checksumGo_spec body hhex heven (body.length + 1) 0 0 (by omega) (by omega)
  simp only [Nat.mul_zero, Nat.add_zero, List.drop_zero, Nat.zero_add] at h
  rw [checksumOf]
  simp only [List.length_cons]
  rw [h]
  rfl

/-- The record-type `switch` of `processHexFile`, expressed directly on
the decoded fields of a framed line (reached only when the checksum is
0). -/
def recordDispatch (st : PState) (line : List Char) : Except HexErr PState :=
  let dataSize := hexValue ((line.drop 1).take 2)
  let address := (st.baseAddress + hexValue ((line.drop 3).take 4)) % U
  match hexValue ((line.drop 7).take 2) with
  | 0 =>
    let p := addChunk ⟨address, dataSize⟩ st.chunks
    .ok { st with
      chunks := p.1,
      numOverlapping := st.numOverlapping + p.2,
      numDataRecords := st.numDataRecords + 1,
      maxDataSize := max st.maxDataSize dataSize }
  | 1 =>
    if dataSize ≠ 0 then .error .formatErr
    else .ok { st with foundEof := true }
  | 2 =>
    if dataSize ≠ 2 then .error .formatErr
    else .ok { st with baseAddress :=
      (hexValue ((line.drop 9).take (2 * dataSize)) <<< 4) % U }
  | 3 =>
    if dataSize ≠ 4 then .error .formatErr
    else .ok { st with
      startAddress := ((hexValue ((line.drop 9).take 4) <<< 4) +
        hexValue ((line.drop 13).take 4)) % U,
      numStartAddresses := st.numStartAddresses + 1 }
  | 4 =>
    if dataSize ≠ 2 then .error .formatErr
    else .ok { st with baseAddress :=
      (hexValue ((line.drop 9).take (2 * dataSize)) <<< 16) % U }
  | 5 =>
    if dataSize ≠ 4 then .error .formatErr
    else .ok { st with
      startAddress := hexValue ((line.drop 9).take (2 * dataSize)),
      numStartAddresses := st.numStartAddresses + 1 }
  | _ => .error .formatErr

/-- Staging lemma: on a correctly framed line (and not after an EOF
record), `processLine` is exactly "checksum first, then the record-type
switch on the decoded fields". -/
theorem processLine_framed (st : PState) (line : List Char)
    (hEof : st.foundEof = false) (hW : wellFramed line = true) :
    processLine st line =
      if checksumSum line = 0 then recordDispatch st line
      else .error .incorrectChecksum := by
  simp only [wellFramed, Bool.and_eq_true, decide_eq_true_eq, List.all_eq_true] at hW
  obtain ⟨⟨⟨hhead, hhex⟩, hmax⟩, hleneq⟩ := hW
  cases line with
  | nil => simp at hhead
  | cons ch body =>
    simp only [List.head?_cons, Option.some.injEq] at hhead
    subst hhead
    have hd1 : (':' :: body).drop 1 = body := rfl
    have hd3 : (':' :: body).drop 3 = body.drop 2 := rfl
    have hd7 : (':' :: body).drop 7 = body.drop 6 := rfl
    have hd9 : (':' :: body).drop 9 = body.drop 8 := rfl
    have hd13 : (':' :: body).drop 13 = body.drop 12 := rfl
    rw [hd1] at hhex hleneq
    have hlc : (':' :: body).length = body.length + 1 := by simp
    rw [hlc] at hleneq hmax
    simp only [minLineSize, maxLineSize, dataOffset] at hleneq hmax
    have hblen : body.length = 10 + 2 * hexValue (body.take 2) := by omega
    have hhexsub2 : ∀ c ∈ body.take 2, isHexDigitA c = true :=
      fun c hc => hhex c (List.take_subset _ _ hc)
    have hhexdt : ∀ (k n : Nat), ∀ c ∈ (body.drop k).take n, isHexDigitA c = true :=
      fun k n c hc => hhex c (List.drop_subset _ _ (List.take_subset _ _ hc))
    have hEofF : ¬ (st.foundEof = true) := by simp [hEof]
    have hlt : ¬ ((':' :: body).length < minLineSize) := by
      rw [hlc]
      simp only [minLineSize, dataOffset]
      omega
    have hgt : ¬ ((':' :: body).length > maxLineSize) := by
      rw [hlc]
      simp only [maxLineSize, minLineSize, dataOffset]
      omega
    have hhd : ¬ ((':' :: body).head? ≠ some ':') := by simp
    have hsub1 : subspan (':' :: body) 1 2 = .ok (body.take 2) := by
      rw [subspan_ok _ _ _ (by rw [hlc]; omega)]
      rfl
    have hfh1 : fromHex (body.take 2) = .ok (hexValue (body.take 2)) :=
      fromHex_ok _ hhexsub2 (by rw [List.length_take]; omega)
    have hleq : ¬ ((':' :: body).length ≠ minLineSize + 2 * hexValue (body.take 2)) := by
      rw [hlc]
      simp only [minLineSize, dataOffset]
      omega
    have hsub2 : subspan (':' :: body) 3 4 = .ok ((body.drop 2).take 4) := by
      rw [subspan_ok _ _ _ (by rw [hlc]; omega)]
      rfl
    have hfh2 : fromHex ((body.drop 2).take 4) = .ok (hexValue ((body.drop 2).take 4)) :=
      fromHex_ok _ (hhexdt 2 4) (by rw [List.length_take]; omega)
    have hsub3 : subspan (':' :: body) 7 2 = .ok ((body.drop 6).take 2) := by
      rw [subspan_ok _ _ _ (by rw [hlc]; omega)]
      rfl
    have hfh3 : fromHex ((body.drop 6).take 2) = .ok (hexValue ((body.drop 6).take 2)) :=
      fromHex_ok _ (hhexdt 6 2) (by rw [List.length_take]; omega)
    have hsub4 : subspan (':' :: body) dataOffset (2 * hexValue (body.take 2)) =
        .ok ((body.drop 8).take (2 * hexValue (body.take 2))) := by
      rw [subspan_ok _ _ _ (by rw [hlc]; simp only [dataOffset]; omega)]
      rfl
    have hcks : checksumOf (':' :: body) = .ok (checksumSum (':' :: body)) :=
      checksumOf_spec body hhex (by omega)
    have hsumr : checksumSum (':' :: body) = (pairBytes body).sum % 256 := rfl
    simp only [processLine, hEofF, hEof, Bool.false_eq_true, hlt, hgt, hhd, hsub1,
      bind_ok, hfh1, hleq, hsub2, hfh2, hsub3, hfh3, hsub4, hcks, hsumr, ite_false,
      ite_true, if_false, if_true, not_false_eq_true]
    by_cases hs : (pairBytes body).sum % 256 = 0
    · simp only [hs, ite_true, if_true, ne_eq, not_true_eq_false, ite_false, if_false]
      simp only [recordDispatch, hd1, hd3, hd7, hd9, hd13, hsumr, hEof]
      generalize hexValue ((body.drop 6).take 2) = rt
      rcases rt with _ | (_ | (_ | (_ | (_ | (_ | k)))))
      · rfl
      · rfl
      · by_cases h2 : hexValue (body.take 2) = 2
        · have hfh4 : fromHex ((body.drop 8).take 4) =
              .ok (hexValue ((body.drop 8).take 4)) :=
            fromHex_ok _ (hhexdt 8 4) (by rw [List.length_take]; omega)
          simp [h2, hfh4, bind_ok]
        · simp [h2]
      · by_cases h4 : hexValue (body.take 2) = 4
        · have hsub5 : subspan (':' :: body) dataOffset 4 = .ok ((body.drop 8).take 4) := by
            rw [subspan_ok _ _ _ (by rw [hlc]; simp only [dataOffset]; omega)]
            rfl
          have hsub6 : subspan (':' :: body) (dataOffset + 4) 4 =
              .ok ((body.drop 12).take 4) := by
            rw [subspan_ok _ _ _ (by rw [hlc]; simp only [dataOffset]; omega)]
            rfl
          have hfh5 : fromHex ((body.drop 8).take 4) =
              .ok (hexValue ((body.drop 8).take 4)) :=
            fromHex_ok _ (hhexdt 8 4) (by rw [List.length_take]; omega)
          have hfh6 : fromHex ((body.drop 12).take 4) =
              .ok (hexValue ((body.drop 12).take 4)) :=
            fromHex_ok _ (hhexdt 12 4) (by rw [List.length_take]; omega)
          simp [h4, hsub5, hsub6, hfh5, hfh6, bind_ok]
        · simp [h4]
      · by_cases h2 : hexValue (body.take 2) = 2
        · have hfh4 : fromHex ((body.drop 8).take 4) =
              .ok (hexValue ((body.drop 8).take 4)) :=
            fromHex_ok _ (hhexdt 8 4) (by rw [List.length_take]; omega)
          simp [h2, hfh4, bind_ok]
        · simp [h2]
      · by_cases h4 : hexValue (body.take 2) = 4
        · have hfh4 : fromHex ((body.drop 8).take 8) =
              .ok (hexValue ((body.drop 8).take 8)) :=
            fromHex_ok _ (hhexdt 8 8) (by rw [List.length_take]; omega)
          simp [h4, hfh4, bind_ok]
        · simp [h4]
      · rfl
    · simp only [hs, ite_false, if_false, ne_eq, not_false_eq_true, ite_true, if_true]

/-- The byte-count field value of a line. -/
def countVal (line : List Char) : Nat := hexValue ((line.drop 1).take 2)

/-- The record-type field value of a line. -/
def typeVal (line : List Char) : Nat := hexValue ((line.drop 7).take 2)

/-- The raw 16-bit address field value of a line. -/
def rawAddrVal (line : List Char) : Nat := hexValue ((line.drop 3).take 4)

/-- The value of the first `n` payload hex characters of a line. -/
def payloadVal (line : List Char) (n : Nat) : Nat := hexValue ((line.drop 9).take n)

/-- The record-type switch can only fail with the format error. -/
theorem recordDispatch_err (st : PState) (line : List Char) (e : HexErr)
    (h : recordDispatch st line = .error e) : e = .formatErr := by
  dsimp only [recordDispatch] at h
  generalize hrt : hexValue ((line.drop 7).take 2) = rt at h
  rcases rt with _ | (_ | (_ | (_ | (_ | (_ | k))))) <;> try (dsimp only at h)
  · cases h
  · rcases Classical.em (hexValue ((line.drop 1).take 2) = 0) with hd | hd
    · rw [if_neg (not_not_intro hd)] at h
      cases h
    · rw [if_pos hd] at h
      exact (Except.error.inj h).symm
  · rcases Classical.em (hexValue ((line.drop 1).take 2) = 2) with hd | hd
    · rw [if_neg (not_not_intro hd)] at h
      cases h
    · rw [if_pos hd] at h
      exact (Except.error.inj h).symm
  · rcases Classical.em (hexValue ((line.drop 1).take 2) = 4) with hd | hd
    · rw [if_neg (not_not_intro hd)] at h
      cases h
    · rw [if_pos hd] at h
      exact (Except.error.inj h).symm
  · rcases Classical.em (hexValue ((line.drop 1).take 2) = 2) with hd | hd
    · rw [if_neg (not_not_intro hd)] at h
      cases h
    · rw [if_pos hd] at h
      exact (Except.error.inj h).symm
  · rcases Classical.em (hexValue ((line.drop 1).take 2) = 4) with hd | hd
    · rw [if_neg (not_not_intro hd)] at h
      cases h
    · rw [if_pos hd] at h
      exact (Except.error.inj h).symm
  · exact (Except.error.inj h).symm

/-- C5: on every correctly framed line (processed before any EOF
record), the checksum is accepted iff the sum mod 256 of all the
2-hex-digit byte values from the byte-count field through the checksum
byte is 0; any other value yields the distinct `"Incorrect checksum"`
error, never the generic format error. -/
theorem c5_checksum_rule (st : PState) (line : List Char)
    (hEof : st.foundEof = false) (hW : wellFramed line = true) :
    (checksumSum line ≠ 0 → processLine st line = .error .incorrectChecksum) ∧
    (checksumSum line = 0 → processLine st line ≠ .error .incorrectChecksum) := by
  have h := processLine_framed st line hEof hW
  constructor
  · intro hs
    rw [h, if_neg hs]
  · intro hs hbad
    rw [h, if_pos hs] at hbad
    have := recordDispatch_err st line _ hbad
    cases this

/-- Witness for C5: the EOF record line with its checksum byte changed
from `FF` to `FE` (sum 0 mod 256 fails) is rejected with the checksum
error. -/
theorem c5_checksum_rule_witness :
    processLine initState (":00000001FE".toList) = .error .incorrectChecksum :=
  (c5_checksum_rule initState (":00000001FE".toList) rfl (by decide)).1 (by decide)

/-- C10: validation is ordered framing → checksum → record type: on a
correctly framed line an unknown record type with a bad checksum
reports `"Incorrect checksum"` (not a format error), and the
record-type / payload-size format errors are reachable only when the
checksum sums to 0 mod 256. -/
theorem c10_validation_order (st : PState) (line : List Char)
    (hEof : st.foundEof = false) (hW : wellFramed line = true) :
    (6 ≤ typeVal line → checksumSum line ≠ 0 →
      processLine st line = .error .incorrectChecksum) ∧
    (processLine st line = .error .formatErr → checksumSum line = 0) := by
  have h := processLine_framed st line hEof hW
  constructor
  · intro _ hs
    rw [h, if_neg hs]
  · intro hf
    by_contra hs
    rw [h, if_neg hs] at hf
    cases hf

/-- Witness for C10: a correctly framed line with unknown record type
`06` and checksum byte `FF` (sum 5 mod 256) reports the checksum error
rather than the unknown-type format error. -/
theorem c10_validation_order_witness :
    processLine initState (":00000006FF".toList) = .error .incorrectChecksum :=
  (c10_validation_order initState (":00000006FF".toList) rfl (by decide)).1
    (by decide) (by decide)

/-- C9: on a correctly framed, checksum-valid line (before any EOF
record): an Extended Segment Address (type 02) or Extended Linear
Address (type 04) record whose payload is not exactly 2 bytes is a
format error; with a 2-byte payload the base address is replaced
wholesale by the decoded 16-bit value shifted left 4 (type 02) or 16
(type 04) bits, all other state — in particular the chunks accumulated
from earlier records — unchanged; and a data record's chunk is placed
at the current base address plus its raw 16-bit address field. -/
theorem c9_address_records (st : PState) (line : List Char)
    (hEof : st.foundEof = false) (hW : wellFramed line = true)
    (hcks : checksumSum line = 0) :
    ((typeVal line = 2 ∨ typeVal line = 4) → countVal line ≠ 2 →
      processLine st line = .error .formatErr) ∧
    (typeVal line = 2 → countVal line = 2 →
      processLine st line = .ok { st with
        baseAddress := (payloadVal line (2 * countVal line) <<< 4) % U }) ∧
    (typeVal line = 4 → countVal line = 2 →
      processLine st line = .ok { st with
        baseAddress := (payloadVal line (2 * countVal line) <<< 16) % U }) ∧
    (typeVal line = 0 →
      processLine st line = .ok { st with
        chunks := (addChunk ⟨(st.baseAddress + rawAddrVal line) % U, countVal line⟩
          st.chunks).1,
        numOverlapping := st.numOverlapping +
          (addChunk ⟨(st.baseAddress + rawAddrVal line) % U, countVal line⟩
            st.chunks).2,
        numDataRecords := st.numDataRecords + 1,
        maxDataSize := max st.maxDataSize (countVal line) }) := by
  have h := processLine_framed st line hEof hW
  rw [h, if_pos hcks]
  refine ⟨?_, ?_, ?_, ?_⟩
  · rintro (ht | ht) hn
    · have ht2 : hexValue ((line.drop 7).take 2) = 2 := ht
      have hn2 : hexValue ((line.drop 1).take 2) ≠ 2 := hn
      dsimp only [recordDispatch]
      rw [ht2]
      dsimp only
      rw [if_pos hn2]
    · have ht2 : hexValue ((line.drop 7).take 2) = 4 := ht
      have hn2 : hexValue ((line.drop 1).take 2) ≠ 2 := hn
      dsimp only [recordDispatch]
      rw [ht2]
      dsimp only
      rw [if_pos hn2]
  · intro ht hn
    have ht2 : hexValue ((line.drop 7).take 2) = 2 := ht
    have hn2 : hexValue ((line.drop 1).take 2) = 2 := hn
    dsimp only [recordDispatch]
    rw [ht2]
    dsimp only
    rw [if_neg (not_not_intro hn2)]
    rfl
  · intro ht hn
    have ht2 : hexValue ((line.drop 7).take 2) = 4 := ht
    have hn2 : hexValue ((line.drop 1).take 2) = 2 := hn
    dsimp only [recordDispatch]
    rw [ht2]
    dsimp only
    rw [if_neg (not_not_intro hn2)]
    rfl
  · intro ht
    have ht2 : hexValue ((line.drop 7).take 2) = 0 := ht
    dsimp only [recordDispatch]
    rw [ht2]
    rfl

/-- Witness for C9: the Extended Segment Address line
`:02000002F0000C` replaces the base address by `0xF000 << 4`. -/
theorem c9_address_records_witness :
    processLine initState (":02000002F0000C".toList) =
      .ok { initState with baseAddress :=
        (payloadVal (":02000002F0000C".toList)
          (2 * countVal (":02000002F0000C".toList)) <<< 4) % U } :=
  (c9_address_records initState (":02000002F0000C".toList) rfl (by decide)
    (by decide)).2.1 (by decide) (by decide)

/-- `processLine` never performs an out-of-bounds subspan access: on
every line and in every state, the result is never the distinguished
`indexErr` — every `subspan` call is guarded by the length checks that
precede it. -/
theorem processLine_no_index (st : PState) (line : List Char) :
    processLine st line ≠ .error .indexErr := by
  have hm : minLineSize = 11 := rfl
  have hM : maxLineSize = 521 := rfl
  have hdo : dataOffset = 9 := rfl
  by_cases h0 : st.foundEof = true
  · simp [processLine, h0]
  by_cases h1 : line.length < minLineSize
  · simp [processLine, h0, h1]
  by_cases h2 : line.length > maxLineSize
  · simp [processLine, h0, h1, h2]
  by_cases h3 : line.head? ≠ some ':'
  · simp [processLine, h0, h1, h2, h3]
  have hsub1 : subspan line 1 2 = .ok (line.tail.take 2) := by
    rw [subspan_ok _ _ _ (by omega), List.drop_one]
  rcases fromHex_shape (line.tail.take 2) with ⟨N, hN⟩ | hN | hN
  · by_cases h4 : line.length ≠ minLineSize + 2 * N
    · simp [processLine, h0, h1, h2, h3, hsub1, bind_ok, hN, h4]
    push_neg at h4
    have hlen4 : ¬(line.length ≠ minLineSize + 2 * N) := not_not_intro h4
    have hsub2 : subspan line 3 4 = .ok ((line.drop 3).take 4) :=
      subspan_ok _ _ _ (by omega)
    have hsub3 : subspan line 7 2 = .ok ((line.drop 7).take 2) :=
      subspan_ok _ _ _ (by omega)
    have hsub4 : subspan line dataOffset (2 * N) =
        .ok ((line.drop dataOffset).take (2 * N)) :=
      subspan_ok _ _ _ (by omega)
    rcases fromHex_shape ((line.drop 3).take 4) with ⟨A, hA⟩ | hA | hA <;>
      [skip;
        (simp [processLine, h0, h1, h2, h3, hsub1, bind_ok, bind_err, hN, hlen4, hsub2,
          hA] <;> (try (split <;> simp [bind_err])));
        (simp [processLine, h0, h1, h2, h3, hsub1, bind_ok, bind_err, hN, hlen4, hsub2,
          hA] <;> (try (split <;> simp [bind_err])))]
    rcases fromHex_shape ((line.drop 7).take 2) with ⟨rt, hrt⟩ | hrt | hrt <;>
      [skip;
        (simp [processLine, h0, h1, h2, h3, hsub1, bind_ok, bind_err, hN, hlen4, hsub2,
          hA, hsub3, hrt] <;> (try (split <;> simp [bind_err])));
        (simp [processLine, h0, h1, h2, h3, hsub1, bind_ok, bind_err, hN, hlen4, hsub2,
          hA, hsub3, hrt] <;> (try (split <;> simp [bind_err])))]
    rcases checksumGo_shape line line.length 1 0 with ⟨v, hv⟩ | hv <;>
      [skip;
        (simp [processLine, h0, h1, h2, h3, hsub1, bind_ok, bind_err, hN, hlen4, hsub2,
          hA, hsub3, hrt, hsub4, checksumOf, hv] <;> (try (split <;> simp [bind_err])))]
    by_cases h5 : v ≠ 0
    · simp [processLine, h0, h1, h2, h3, hsub1, bind_ok, hN, hlen4, hsub2, hA, hsub3,
        hrt, hsub4, checksumOf, hv, h5] <;> (try (split <;> simp))
    push_neg at h5
    simp only [processLine, h0, h1, h2, h3, hsub1, bind_ok, hN, hlen4, hsub2, hA, hsub3,
      hrt, hsub4, checksumOf, hv, h5, Bool.false_eq_true, ite_false, ite_true, if_false,
      if_true, not_false_eq_true, ne_eq, not_true_eq_false, lt_irrefl, gt_iff_lt,
      not_lt, le_refl]
    intro hbad
    split at hbad
    · cases hbad
    · split at hbad <;> simp_all
    · split at hbad <;>
        first
          | cases hbad
          | (rcases fromHex_shape ((line.drop dataOffset).take (2 * N))
                with ⟨w, hw⟩ | hw | hw <;>
              simp only [hw, bind_ok, bind_err] at hbad <;> cases hbad)
    · split at hbad <;>
        first
          | cases hbad
          | (rename_i hcond
             have hN4 : N = 4 := by omega
             have hsub5 : subspan line dataOffset 4 =
                 .ok ((line.drop dataOffset).take 4) :=
               subspan_ok _ _ _ (by omega)
             rw [hsub5, bind_ok] at hbad
             rcases fromHex_shape ((line.drop dataOffset).take 4) with ⟨w, hw⟩ | hw | hw <;>
               simp only [hw, bind_ok, bind_err] at hbad <;>
               try cases hbad
             have hsub6 : subspan line (dataOffset + 4) 4 =
                 .ok ((line.drop (dataOffset + 4)).take 4) :=
               subspan_ok _ _ _ (by omega)
             rw [hsub6, bind_ok] at hbad
             rcases fromHex_shape ((line.drop (dataOffset + 4)).take 4)
                 with ⟨w2, hw2⟩ | hw2 | hw2 <;>
               simp only [hw2, bind_ok, bind_err] at hbad <;> cases hbad)
    · split at hbad <;>
        first
          | cases hbad
          | (rcases fromHex_shape ((line.drop dataOffset).take (2 * N))
                with ⟨w, hw⟩ | hw | hw <;>
              simp only [hw, bind_ok, bind_err] at hbad <;> cases hbad)
    · split at hbad <;>
        first
          | cases hbad
          | (rcases fromHex_shape ((line.drop dataOffset).take (2 * N))
                with ⟨w, hw⟩ | hw | hw <;>
              simp only [hw, bind_ok, bind_err] at hbad <;> cases hbad)
    · cases hbad
  · simp [processLine, h0, h1, h2, h3, hsub1, bind_ok, bind_err, hN]
  · simp [processLine, h0, h1, h2, h3, hsub1, bind_ok, bind_err, hN]

/-- C7: `processLine` never commits an out-of-bounds access (never
returns the distinguished `indexErr`), and whenever the line's length
differs from `11 + 2N` — `N` the decoded byte-count field — the parse
fails with the format error; in particular a line declaring 2 payload
bytes but too short for them is a format error, not an index error. -/
theorem c7_length_check_safety (st : PState) (line : List Char) :
    (processLine st line ≠ .error .indexErr) ∧
    (st.foundEof = false →
      ∀ N : Nat, fromHex ((line.drop 1).take 2) = .ok N →
        line.length ≠ minLineSize + 2 * N →
        processLine st line = .error .formatErr) := by
  refine ⟨processLine_no_index st line, ?_⟩
  intro hEof N hN hne
  have hm : minLineSize = 11 := rfl
  have hM2 : maxLineSize = 521 := rfl
  by_cases h1 : line.length < minLineSize
  · simp [processLine, hEof, h1]
  by_cases h2 : line.length > maxLineSize
  · simp [processLine, hEof, h1, h2]
  by_cases h3 : line.head? ≠ some ':'
  · simp [processLine, hEof, h1, h2, h3]
  have hsub1 : subspan line 1 2 = .ok (line.tail.take 2) := by
    rw [subspan_ok _ _ _ (by omega), List.drop_one]
  have hN2 : fromHex (line.tail.take 2) = .ok N := by
    rw [← List.drop_one]
    exact hN
  simp [processLine, hEof, h1, h2, h3, hsub1, bind_ok, hN2, hne]

/-- Witness for C7: the line `:02000000FF` declares byte count 2 but
has length 11 instead of 15: a format error, not an index error. -/
theorem c7_length_check_safety_witness :
    (processLine initState (":02000000FF".toList) ≠ .error .indexErr) ∧
    processLine initState (":02000000FF".toList) = .error .formatErr :=
  ⟨(c7_length_check_safety initState (":02000000FF".toList)).1,
   (c7_length_check_safety initState (":02000000FF".toList)).2 rfl 2 rfl (by decide)⟩
